import Mathlib

/-!
Verification of the Glow-style multi-scale normalizing flow
(`src/glow_model.py` and its spec).  The file shallowly embeds the
channel-level and tensor-level operations of the model and proves the
round-trip, shape, likelihood, sampling and training-loop properties
claimed in the specification.

Tensors of shape (N, H, W, C) are embedded per batch element as total
functions `ℕ → ℕ → ℕ → ℝ` (height, width, channel index); every theorem
quantifies indices inside the intended shape region, which is how the
shape contract of the source is expressed.
-/

namespace Glow

/-! ### Channel split / unsplit (src/glow_model.py lines 87-91)

`split(x) = jnp.split(x, 2, axis=-1)` splits the channel axis into two
equal halves and raises an error when the channel count is odd;
`unsplit(x, z) = jnp.concatenate([z, x], axis=-1)` concatenates `z`
before `x` along the channel axis.  The channel axis of one position is
embedded as a `List α`. -/

/-- The function `split(x) = jnp.split(x, 2, axis=-1)`: two equal halves of the channel axis,
`none` when the length is not divisible by 2 (jnp raises an error). -/
def split {α : Type} (x : List α) : Option (List α × List α) :=
  if 2 ∣ x.length then some (x.take (x.length / 2), x.drop (x.length / 2)) else none

/-- The function `unsplit(x, z) = jnp.concatenate([z, x], axis=-1)`. -/
def unsplit {α : Type} (x z : List α) : List α := z ++ x

/-! ### Squeeze / Unsqueeze

Modelled from the spec: `layers.squeeze` / `layers.unsqueeze` are not in
`src/`.  The spec (section 4.1) says `squeeze` maps (N, H, W, C) to
(N, H/2, W/2, 4C) by flattening each 2x2 spatial block onto the channel
axis in a fixed row-major order, and `unsqueeze` is its exact inverse.
`c` is the channel count of the un-squeezed tensor. -/

/-- A rank-3 slice (one batch element) of a rank-4 tensor: height, width
and channel index to a value. -/
def TensorD (α : Type) := ℕ → ℕ → ℕ → α

/-- Modelled from the spec: `squeeze` (from the missing `layers.py`).
Output channel `k` (with `k < 4*c`) holds input channel `k % c` of the
block element at row offset `(k / c) / 2` and column offset
`(k / c) % 2` of the 2x2 block at (2i, 2j). -/
def squeeze {α : Type} (c : ℕ) (x : TensorD α) : TensorD α :=
  fun i j k => x (2 * i + (k / c) / 2) (2 * j + (k / c) % 2) (k % c)

/-- Modelled from the spec: `unsqueeze` (from the missing `layers.py`),
the exact inverse reshaping of `squeeze`. -/
def unsqueeze {α : Type} (c : ℕ) (y : TensorD α) : TensorD α :=
  fun i j k => y (i / 2) (j / 2) (k + c * (2 * (i % 2) + j % 2))

/-! ### Training loop divergence check (src/glow_model.py lines 454-467)

The inner loop of `train_glow` runs `steps_per_epoch` steps for each of
`num_epochs` epochs; after each step it checks `np.isnan(loss[0])` and,
when true, prints "Model diverged - NaN loss" and returns `(None, None)`.
The per-step loss values are an input oracle here (they come from the
model and the data); the float loss is embedded as an exact value or one
of the special values `inf`, `neginf`, `nan`. -/

/-- A float loss value: finite (exact rational), `inf`, `-inf` or `nan`. -/
inductive FloatVal where
  | val : ℚ → FloatVal
  | inf : FloatVal
  | neginf : FloatVal
  | nan : FloatVal
deriving DecidableEq

/-- The `np.isnan` predicate on a loss value. -/
def FloatVal.isnan : FloatVal → Bool
  | .nan => true
  | _ => false

/-- Finiteness of a loss value (the spec's "non-finite" is its negation). -/
def FloatVal.isFiniteV : FloatVal → Bool
  | .val _ => true
  | _ => false

/-- The flattened step iteration of `train_glow`: runs up to `n` steps
starting at step index `idx`, halting as soon as `np.isnan(loss)` holds
for the current step's loss.  Returns (number of steps executed,
whether the NaN check fired). -/
def trainLoopSteps (losses : ℕ → FloatVal) : ℕ → ℕ → ℕ × Bool
  | 0, _ => (0, false)
  | n + 1, idx =>
    if (losses idx).isnan then (1, true)
    else
      let r := trainLoopSteps losses n (idx + 1)
      (r.1 + 1, r.2)

/-- The control flow of `train_glow` with respect to divergence: executes
`numEpochs * stepsPerEpoch` training steps, halting with `(None, None)`
(modelled as `none`) as soon as a step's loss is NaN.  Returns the
result together with the number of training steps executed. -/
def train_glow (losses : ℕ → FloatVal) (numEpochs stepsPerEpoch : ℕ) :
    Option Unit × ℕ :=
  let r := trainLoopSteps losses (numEpochs * stepsPerEpoch) 0
  (if r.2 then none else some (), r.1)

/-! ### Latent log-likelihood (src/glow_model.py lines 271-282)

`get_logpz` is wrapped in `@jax.vmap`, which applies the body
independently to every batch element; the body is embedded here per
batch element.  A latent slice is its flattened list of positions; a
prior tensor is `none` (standard normal) or the flattened list whose
first channel half is `mu` and second half is `log_sigma`. -/

/-- One scale's summand of `get_logpz`: the elementwise
`-logsigma - 0.5*log(2*pi) - 0.5*(zi - mu)**2 / exp(2*logsigma)`
summed over all positions (`jnp.sum`). -/
noncomputable def logpzTerm (zi mu ls : List ℝ) : ℝ :=
  ((zi.zip (mu.zip ls)).map (fun p =>
    -p.2.2 - 0.5 * Real.log (2 * Real.pi)
      - 0.5 * (p.1 - p.2.1) ^ 2 / Real.exp (2 * p.2.2))).sum

/-- The body of `get_logpz` per batch element: iterates over `zip(z, priors)`; a
`None` prior contributes with `mu = 0`, `logsigma = 0`; otherwise
`mu, logsigma = jnp.split(priori, 2, axis=-1)`. -/
noncomputable def get_logpz : List (List ℝ) → List (Option (List ℝ)) → ℝ
  | zi :: zr, pi :: pr =>
    (match pi with
     | none => logpzTerm zi (zi.map fun _ => 0) (zi.map fun _ => 0)
     | some p =>
       match split p with
       | some (mu, ls) => logpzTerm zi mu ls
       | none => 0)
    + get_logpz zr pr
  | _, _ => 0

/-- The Gaussian log-density of the claim's words:
`-log sigma - 0.5*log(2*pi) - 0.5*(z - mu)^2 / sigma^2`. -/
noncomputable def gaussLogDensity (mu sigma zv : ℝ) : ℝ :=
  -Real.log sigma - 0.5 * Real.log (2 * Real.pi)
    - 0.5 * (zv - mu) ^ 2 / sigma ^ 2

/-- The claim's description of `get_logpz`, stated with
`gaussLogDensity`: per scale, the sum over all positions of the Gaussian
log-density of the latent under `(mu, sigma = exp logsigma)` taken from
the first and second channel halves of the prior; a `None` prior means
`mu = 0`, `logsigma = 0`. -/
noncomputable def claimLogpz : List (List ℝ) → List (Option (List ℝ)) → ℝ
  | zi :: zr, pi :: pr =>
    (match pi with
     | none => (zi.map (fun zv => gaussLogDensity 0 (Real.exp 0) zv)).sum
     | some p =>
       ((zi.zip ((p.take (p.length / 2)).zip (p.drop (p.length / 2)))).map
         (fun q => gaussLogDensity q.2.1 (Real.exp q.2.2) q.1)).sum)
    + claimLogpz zr pr
  | _, _ => 0

/-! ### Latent shape hierarchy (C5)

Modelled from the spec: the shape contract of `GLOW` (`model.py` is not
in `src/`): at each scale squeeze halves height and width and quadruples
the channels, the split then halves the channels of the emitted latent,
except at the last scale where the whole tensor is the latent.  The
sanity check in src/glow_model.py lines 237-244 and the `eps` shapes in
lines 439-443 encode the same expectations. -/

/-- Latent shapes `(N, H_i, W_i, C_i)` emitted for an input of shape
`(n, h, w, c)` over the given number of scales. -/
def latentShapes (n : ℕ) : ℕ → ℕ → ℕ → ℕ → List (ℕ × ℕ × ℕ × ℕ)
  | _, _, _, 0 => []
  | h, w, c, l + 1 =>
    if l = 0 then [(n, h / 2, w / 2, c * 4)]
    else (n, h / 2, w / 2, c * 2) :: latentShapes n (h / 2) (w / 2) (c * 2) l

/-! ### ActNorm data-dependent initialization (C6)

Modelled from the spec: `ActNorm` lives in the missing `layers.py`.  On
the first call the per-channel scale and bias are computed from the
first batch as `sigma = 1/std`, `mu = -mean/std`, and the returned
output is `y = x * sigma + mu`.  One channel's batch of values is a
function `Fin`-free `ℕ → ℝ` over `m` pooled positions. -/

/-- Mean of the first `m` values of one channel. -/
noncomputable def chMean (m : ℕ) (d : ℕ → ℝ) : ℝ := (∑ i ∈ Finset.range m, d i) / m

/-- Variance of the first `m` values of one channel. -/
noncomputable def chVar (m : ℕ) (d : ℕ → ℝ) : ℝ :=
  (∑ i ∈ Finset.range m, (d i - chMean m d) ^ 2) / m

/-- Standard deviation of the first `m` values of one channel. -/
noncomputable def chStd (m : ℕ) (d : ℕ → ℝ) : ℝ := Real.sqrt (chVar m d)

/-- Modelled from the spec: the output of ActNorm's very first call on
this channel: `y = x * sigma + mu` with the data-dependent
initialization `sigma = 1 / std`, `mu = -mean / std`. -/
noncomputable def actNormInitOut (m : ℕ) (d : ℕ → ℝ) : ℕ → ℝ :=
  fun i => d i * (1 / chStd m d) + (-(chMean m d) / chStd m d)

/-! ### Sampling-temperature scaling (C7)

Modelled from the spec: in sampling mode (inside the missing
`model.py`) each latent position is drawn as
`z = mu + (sigma * T) * eps` with `eps ~ N(0, 1)`: the temperature `T`
scales only the standard deviation, never the mean.  Empirical mean and
variance over a list of noise draws witness the variance scaling. -/

/-- One sampled latent position at temperature `T` from noise `e`. -/
noncomputable def sampleLatent (mu sigma T e : ℝ) : ℝ := mu + sigma * T * e

/-- Empirical mean of a list of draws. -/
noncomputable def listMean (xs : List ℝ) : ℝ := xs.sum / xs.length

/-- Empirical variance of a list of draws. -/
noncomputable def listVar (xs : List ℝ) : ℝ :=
  ((xs.map (fun x => (x - listMean xs) ^ 2)).sum) / xs.length

/-! ### Flow-step components (C1)

Modelled from the spec: `ActNorm`, the invertible 1x1 convolution
(`Conv1x1`, LU-style parameterization) and `AffineCoupling` live in the
missing `layers.py`/`model.py`.  Each acts per spatial position on the
channel vector, embedded as a total function `ℕ → ℝ` whose channel
count is tracked by the theorems. -/

/-- The channel vector at one spatial position. -/
def ChanF := ℕ → ℝ

/-- Modelled from the spec: the parameters of one FlowStep acting on
`n + n` channels: ActNorm scale `sigma` and bias `mu`, the fixed
permutation and trainable LU factors (strict lower factor, strict upper
factor, diagonal sign and log-magnitude) of the invertible 1x1
convolution, and the coupling sub-network `nn` mapping the second
channel half to `(log_sigma, mu)` for the first half. -/
structure StepParams (n : ℕ) where
  sigma : ℕ → ℝ
  mu : ℕ → ℝ
  perm : Equiv.Perm (Fin (n + n))
  lfac : Fin (n + n) → Fin (n + n) → ℝ
  ufac : Fin (n + n) → Fin (n + n) → ℝ
  sgn : Fin (n + n) → ℝ
  logmag : Fin (n + n) → ℝ
  nn : (Fin n → ℝ) → (Fin n → ℝ) × (Fin n → ℝ)

/-- The unit lower-triangular factor `L`. -/
noncomputable def lowerMat {n : ℕ} (p : StepParams n) :
    Matrix (Fin (n + n)) (Fin (n + n)) ℝ :=
  Matrix.of fun i j => if i = j then 1 else if j < i then p.lfac i j else 0

/-- The upper-triangular factor `U + diag(s * exp(log_mag))`. -/
noncomputable def upperMat {n : ℕ} (p : StepParams n) :
    Matrix (Fin (n + n)) (Fin (n + n)) ℝ :=
  Matrix.of fun i j =>
    if i = j then p.sgn i * Real.exp (p.logmag i)
    else if i < j then p.ufac i j else 0

/-- The 1x1 convolution kernel
`W = P * L * (U + diag(s * exp(log_mag)))`. -/
noncomputable def wMat {n : ℕ} (p : StepParams n) :
    Matrix (Fin (n + n)) (Fin (n + n)) ℝ :=
  p.perm.permMatrix ℝ * lowerMat p * upperMat p

/-- ActNorm forward: `y = x * sigma + mu` per channel. -/
noncomputable def actNorm (sigma mu : ℕ → ℝ) (x : ChanF) : ChanF :=
  fun k => x k * sigma k + mu k

/-- ActNorm inverse: `x = (y - mu) / sigma` per channel. -/
noncomputable def actNormInv (sigma mu : ℕ → ℝ) (y : ChanF) : ChanF :=
  fun k => (y k - mu k) / sigma k

/-- Apply a `c × c` matrix to the first `c` channels (the per-pixel
linear map of the 1x1 convolution); other channels pass through. -/
noncomputable def applyMat (c : ℕ) (W : Matrix (Fin c) (Fin c) ℝ)
    (x : ChanF) : ChanF :=
  fun k => if h : k < c then W.mulVec (fun j => x j.val) ⟨k, h⟩ else x k

/-- Invertible 1x1 convolution forward: `y = W x` over the channel axis. -/
noncomputable def conv1x1 {n : ℕ} (p : StepParams n) : ChanF → ChanF :=
  applyMat (n + n) (wMat p)

/-- Invertible 1x1 convolution inverse: `x = W⁻¹ y`. -/
noncomputable def conv1x1Inv {n : ℕ} (p : StepParams n) : ChanF → ChanF :=
  applyMat (n + n) (wMat p)⁻¹

/-- Affine coupling forward: `(log_sigma, mu) = nn(x_b)` from the second
channel half `x_b = x (n + ·)`, then `y_a = exp(log_sigma) * x_a + mu`
on the first half, second half unchanged. -/
noncomputable def affineCoupling (n : ℕ)
    (nn : (Fin n → ℝ) → (Fin n → ℝ) × (Fin n → ℝ)) (x : ChanF) : ChanF :=
  fun k =>
    if h : k < n then
      Real.exp ((nn fun j => x (n + j.val)).1 ⟨k, h⟩) * x k
        + (nn fun j => x (n + j.val)).2 ⟨k, h⟩
    else x k

/-- Affine coupling inverse: recompute `(log_sigma, mu) = nn(y_b)` from
the unchanged second half, then `x_a = (y_a - mu) * exp(-log_sigma)`. -/
noncomputable def affineCouplingInv (n : ℕ)
    (nn : (Fin n → ℝ) → (Fin n → ℝ) × (Fin n → ℝ)) (y : ChanF) : ChanF :=
  fun k =>
    if h : k < n then
      (y k - (nn fun j => y (n + j.val)).2 ⟨k, h⟩)
        * Real.exp (-((nn fun j => y (n + j.val)).1 ⟨k, h⟩))
    else y k

/-- FlowStep forward: ActNorm, then the 1x1 convolution, then the
affine coupling (spec section 4.5). -/
noncomputable def flowStep {n : ℕ} (p : StepParams n) (x : ChanF) : ChanF :=
  affineCoupling n p.nn (conv1x1 p (actNorm p.sigma p.mu x))

/-- FlowStep inverse: the three inverses in reverse order. -/
noncomputable def flowStepInv {n : ℕ} (p : StepParams n) (y : ChanF) : ChanF :=
  actNormInv p.sigma p.mu (conv1x1Inv p (affineCouplingInv n p.nn y))

/-- The K flow steps of one scale, first step applied first. -/
noncomputable def flowSteps {n : ℕ} : List (StepParams n) → ChanF → ChanF
  | [], x => x
  | p :: ps, x => flowSteps ps (flowStep p x)

/-- The inverses of the K flow steps, in reverse order. -/
noncomputable def flowStepsInv {n : ℕ} : List (StepParams n) → ChanF → ChanF
  | [], y => y
  | p :: ps, y => flowStepInv p (flowStepsInv ps y)

/-- A step's parameters are invertible: ActNorm scales and the diagonal
signs of the 1x1 convolution do not vanish (the spec's
`DegenerateInputError` / `SingularMatrixError` conditions). -/
def ValidStep (n : ℕ) (p : StepParams n) : Prop :=
  (∀ k, p.sigma k ≠ 0) ∧ ∀ i, p.sgn i ≠ 0

/-! ### Multi-scale model (C1)

Modelled from the spec: `GLOW` (`model.py` is not in `src/`): per scale,
squeeze, K flow steps, then split off the latent (first channel half)
and recurse on the remainder (second half); the last scale keeps the
whole tensor as its latent.  The inverse pass mirrors this with the
full latent list (the exact-reconstruction mode of
`apply(params, z[-1], z=z, reverse=True)`). -/

/-- A rank-3 real tensor slice (one batch element). -/
def Tensor := TensorD ℝ

/-- The all-zero tensor. -/
noncomputable def zeroT : Tensor := fun _ _ _ => 0

/-- The latent half of a split: the first `m` channels. -/
noncomputable def splitLow (m : ℕ) (y : Tensor) : Tensor :=
  fun i j k => if k < m then y i j k else 0

/-- The remainder half of a split: channels from `m` on. -/
noncomputable def splitHigh (m : ℕ) (y : Tensor) : Tensor :=
  fun i j k => if k < m then y i j (k + m) else 0

/-- Inverse of the split: `concat(z, x)` along channels, `z` first. -/
noncomputable def unsplitT (m : ℕ) (x z : Tensor) : Tensor :=
  fun i j k => if k < m then z i j k else x i j (k - m)

/-- Apply a channel-vector map at every spatial position. -/
noncomputable def applyChan (f : ChanF → ChanF) (x : Tensor) : Tensor :=
  fun i j k => f (fun m => x i j m) k

/-- Modelled from the spec: the parameters of `GLOW` with at least one
scale; a scale with input channel count `c` squeezes to `c + c + (c + c)`
channels, on which its flow steps act (`StepParams (c + c)`), and
recurses on the remainder with `c + c` channels. -/
inductive GlowParams : ℕ → ℕ → Type where
  | last (c : ℕ) (steps : List (StepParams (c + c))) : GlowParams 1 c
  | cons (l c : ℕ) (steps : List (StepParams (c + c)))
      (rest : GlowParams (l + 1) (c + c)) : GlowParams (l + 2) c

/-- All steps of every scale are invertible. -/
def ValidGlow : {l c : ℕ} → GlowParams l c → Prop
  | _, c, .last _ steps => ∀ p ∈ steps, ValidStep (c + c) p
  | _, c, .cons _ _ steps rest =>
    (∀ p ∈ steps, ValidStep (c + c) p) ∧ ValidGlow rest

/-- The `GLOW` forward pass (`reverse=False`): per scale squeeze, apply the flow
steps, emit the latent slice (first channel half) and recurse on the
remainder; the last scale emits the whole tensor.  Returns the ordered
latent list `[z_0, ..., z_(L-1)]`. -/
noncomputable def glowForward : {l c : ℕ} → GlowParams l c → Tensor → List Tensor
  | _, c, .last _ steps, x => [applyChan (flowSteps steps) (squeeze c x)]
  | _, c, .cons _ _ steps rest, x =>
    let y := applyChan (flowSteps steps) (squeeze c x)
    splitLow (c + c) y :: glowForward rest (splitHigh (c + c) y)

/-- The `GLOW` inverse pass (`reverse=True`) in exact-reconstruction mode: from
the full latent list, per scale reconstruct the pre-split tensor
(`concat(z_i, x_(i+1))`), apply the inverse flow steps, and unsqueeze. -/
noncomputable def glowInverse : {l c : ℕ} → GlowParams l c → List Tensor → Tensor
  | _, c, .last _ steps, zs =>
    unsqueeze c (applyChan (flowStepsInv steps) (zs.headD zeroT))
  | _, c, .cons _ _ steps rest, zs =>
    unsqueeze c (applyChan (flowStepsInv steps)
      (unsplitT (c + c) (glowInverse rest zs.tail) (zs.headD zeroT)))

/-- Mean absolute difference of two channel vectors over `c` channels. -/
noncomputable def meanAbsDiffC (c : ℕ) (f g : ChanF) : ℝ :=
  (∑ k ∈ Finset.range c, |f k - g k|) / c

/-- Mean absolute difference of two tensors over the shape region
`(h, w, c)`. -/
noncomputable def meanAbsDiffT (h w c : ℕ) (x y : Tensor) : ℝ :=
  (∑ i ∈ Finset.range h, ∑ j ∈ Finset.range w,
    ∑ k ∈ Finset.range c, |x i j k - y i j k|) / (h * w * c)

/-- A concrete invertible step on `1 + 1` channels (identity transform). -/
noncomputable def unitStep : StepParams 1 where
  sigma := fun _ => 1
  mu := fun _ => 0
  perm := Equiv.refl _
  lfac := fun _ _ => 0
  ufac := fun _ _ => 0
  sgn := fun _ => 1
  logmag := fun _ => 0
  nn := fun _ => (fun _ => 0, fun _ => 0)

/-- A concrete one-scale model with no flow steps. -/
noncomputable def trivialGlow : GlowParams 1 1 := .last 1 []

/-! ### Sampling entry point (C9)

`sample` (src/glow_model.py lines 329-348) draws `zL` from the
caller-supplied `key` when no `eps` is given (`jax.random.normal` is a
pure function of its key in jax), otherwise takes `eps[-1]`, and runs
one reverse-mode `model.apply`; no module-level random state is read. -/

/-- The module-level global state of glow_model.py (its `random_key`,
line 15). -/
structure ModuleState where
  random_key : ℕ

/-- Modelled from the spec: `jax.random.normal(key, shape)` as a pure
deterministic function of the key, the position and the shape (the jax
PRNG is functional; the concrete values stand in for the draw). -/
noncomputable def prngNormal (key : ℕ) (shape : ℕ × ℕ × ℕ) : Tensor :=
  fun i j k =>
    if i < shape.1 ∧ j < shape.2.1 ∧ k < shape.2.2 then
      ((key + 37 * i + 101 * j + 211 * k : ℕ) : ℝ)
    else 0

/-- The `sample` entry point: `zL = eps[-1]` or a fresh draw from `key`; one
reverse-mode apply on the latent list; optional pure postprocessing.
The temperature is passed through to the reverse pass (whose
sampling-mode internals live in the missing `model.py`). -/
noncomputable def sample {l c : ℕ} (_gs : ModuleState) (ps : GlowParams l c)
    (eps : Option (List Tensor)) (shape : ℕ × ℕ × ℕ)
    (_samplingTemperature : ℝ) (key : ℕ)
    (postprocessFn : Option (Tensor → Tensor)) : Tensor :=
  let zL : Tensor :=
    match eps with
    | none => prngNormal key shape
    | some es => es.getLastD zeroT
  let y := glowInverse ps (match eps with | some es => es | none => [zL])
  match postprocessFn with
  | none => y
  | some f => f y

/-! ### Theorems: split / unsplit (C2, C10) -/

/-- Claim C2: for a channel axis of even length, `split` returns the two
channel halves (first half `z`, second half `xr`), each of half the
length, and `unsplit xr z` (which concatenates `z` before `xr`)
reconstructs `x` exactly; conversely, for equal-length `xr` and `z`,
`split (unsplit xr z) = some (z, xr)`. -/
theorem split_halves_roundtrip {α : Type} (x : List α) (hx : 2 ∣ x.length)
    (xr z : List α) (hlen : xr.length = z.length) :
    (split x = some (x.take (x.length / 2), x.drop (x.length / 2))
      ∧ (x.take (x.length / 2)).length = x.length / 2
      ∧ (x.drop (x.length / 2)).length = x.length / 2
      ∧ unsplit (x.drop (x.length / 2)) (x.take (x.length / 2)) = x)
    ∧ split (unsplit xr z) = some (z, xr) := by
  constructor
  · refine ⟨if_pos hx, ?_, ?_, ?_⟩
    · rw [List.length_take]
      omega
    · rw [List.length_drop]
      omega
    · exact x.take_append_drop (x.length / 2)
  · have hL : (unsplit xr z).length = z.length + xr.length := by
      simp [unsplit]
    have hdvd : 2 ∣ (unsplit xr z).length := by omega
    have hhalf : (unsplit xr z).length / 2 = z.length := by omega
    rw [split, if_pos hdvd, hhalf]
    rw [unsplit, List.take_left' rfl, List.drop_left' rfl]

theorem split_halves_roundtrip_witness :
    (split ([1, 2, 3, 4] : List ℕ)
        = some (([1, 2, 3, 4] : List ℕ).take 2, ([1, 2, 3, 4] : List ℕ).drop 2)
      ∧ (([1, 2, 3, 4] : List ℕ).take 2).length = 2
      ∧ (([1, 2, 3, 4] : List ℕ).drop 2).length = 2
      ∧ unsplit (([1, 2, 3, 4] : List ℕ).drop 2) (([1, 2, 3, 4] : List ℕ).take 2)
          = [1, 2, 3, 4])
    ∧ split (unsplit [5] [6]) = some ([6], [5]) :=
  split_halves_roundtrip [1, 2, 3, 4] (by decide) [5] [6] (by decide)

/-- Claim C10: when the channel axis has odd length, `split` fails
(returns `none`, modelling the `jnp.split` error for a non-even split);
when the length is even it succeeds, returning two lists of exactly half
the length each. -/
theorem split_odd_channel_fails {α : Type} (x : List α) :
    (Odd x.length → split x = none)
    ∧ (Even x.length → ∃ z xr, split x = some (z, xr)
        ∧ z.length = x.length / 2 ∧ xr.length = x.length / 2) := by
  constructor
  · intro hodd
    have : ¬ 2 ∣ x.length := by
      rw [Nat.odd_iff] at hodd
      omega
    exact if_neg this
  · intro heven
    have hdvd : 2 ∣ x.length := heven.two_dvd
    refine ⟨x.take (x.length / 2), x.drop (x.length / 2), if_pos hdvd, ?_, ?_⟩
    · rw [List.length_take]
      omega
    · rw [List.length_drop]
      omega

theorem split_odd_channel_fails_witness :
    split ([1, 2, 3] : List ℕ) = none
    ∧ ∃ z xr, split ([1, 2] : List ℕ) = some (z, xr)
        ∧ z.length = 1 ∧ xr.length = 1 :=
  ⟨(split_odd_channel_fails [1, 2, 3]).1 (by decide),
   (split_odd_channel_fails [1, 2]).2 (by decide)⟩

/-! ### Theorems: squeeze / unsqueeze (C3) -/

/-- Claim C3: `unsqueeze (squeeze x) = x` on every entry of the original
shape region (channel index below `c`), and `squeeze (unsqueeze y) = y`
on every entry with channel index below `4 * c`; both hold exactly
(the reshaping moves values without modifying them). -/
theorem squeeze_unsqueeze_inverse {α : Type} (c : ℕ) (x y : TensorD α)
    (i j k : ℕ) :
    (k < c → unsqueeze c (squeeze c x) i j k = x i j k)
    ∧ (k < 4 * c → squeeze c (unsqueeze c y) i j k = y i j k) := by
  constructor
  · intro hk
    have hc : 0 < c := by omega
    show squeeze c x (i / 2) (j / 2) (k + c * (2 * (i % 2) + j % 2)) = x i j k
    rw [squeeze]
    have h1 : (k + c * (2 * (i % 2) + j % 2)) / c = 2 * (i % 2) + j % 2 := by
      rw [Nat.add_mul_div_left _ _ hc, Nat.div_eq_of_lt hk]
      exact Nat.zero_add _
    have h2 : (k + c * (2 * (i % 2) + j % 2)) % c = k := by
      rw [Nat.add_mul_mod_self_left, Nat.mod_eq_of_lt hk]
    rw [h1, h2]
    have e1 : 2 * (i / 2) + (2 * (i % 2) + j % 2) / 2 = i := by omega
    have e2 : 2 * (j / 2) + (2 * (i % 2) + j % 2) % 2 = j := by omega
    rw [e1, e2]
  · intro hk
    have hc : 0 < c := by omega
    show unsqueeze c y (2 * i + (k / c) / 2) (2 * j + (k / c) % 2) (k % c) = y i j k
    rw [unsqueeze]
    have ht : k / c < 4 := by
      rw [Nat.div_lt_iff_lt_mul hc]
      omega
    generalize hT : k / c = t at ht
    have e1 : (2 * i + t / 2) / 2 = i := by omega
    have e2 : (2 * j + t % 2) / 2 = j := by omega
    have e3 : (2 * i + t / 2) % 2 = t / 2 := by omega
    have e4 : (2 * j + t % 2) % 2 = t % 2 := by omega
    rw [e1, e2, e3, e4]
    have e5 : k % c + c * (2 * (t / 2) + t % 2) = k := by
      have h6 : 2 * (t / 2) + t % 2 = t := by omega
      rw [h6, ← hT, Nat.mod_add_div]
    rw [e5]

theorem squeeze_unsqueeze_inverse_witness :
    (unsqueeze 3 (squeeze 3 (fun i j k => i * 100 + j * 10 + k)) 5 4 2
        = (5 : ℕ) * 100 + 4 * 10 + 2)
    ∧ (squeeze 3 (unsqueeze 3 (fun i j k => i * 100 + j * 10 + k)) 2 1 11
        = (2 : ℕ) * 100 + 1 * 10 + 11) :=
  ⟨(squeeze_unsqueeze_inverse 3 (fun i j k => i * 100 + j * 10 + k)
      (fun i j k => i * 100 + j * 10 + k) 5 4 2).1 (by decide),
   (squeeze_unsqueeze_inverse 3 (fun i j k => i * 100 + j * 10 + k)
      (fun i j k => i * 100 + j * 10 + k) 2 1 11).2 (by decide)⟩

/-! ### Theorems: training-loop divergence handling (C8) -/

lemma trainLoopSteps_first_nan (losses : ℕ → FloatVal) :
    ∀ (n idx i : ℕ), i < n → (losses (idx + i)).isnan = true →
      (∀ j, j < i → (losses (idx + j)).isnan = false) →
      trainLoopSteps losses n idx = (i + 1, true) := by
  intro n
  induction n with
  | zero => intro idx i hi; omega
  | succ n ih =>
    intro idx i hi hnan hfirst
    rw [trainLoopSteps]
    rcases Bool.eq_false_or_eq_true ((losses idx).isnan) with hcase | hcase
    · have hi0 : i = 0 := by
        by_contra h0
        have h2 := hfirst 0 (by omega)
        rw [Nat.add_zero, hcase] at h2
        exact absurd h2 (by decide)
      subst hi0
      rw [if_pos hcase]
    · rw [if_neg (by rw [hcase]; exact (by decide : ¬ (false = true)))]
      obtain ⟨m, rfl⟩ : ∃ m, i = m + 1 := by
        rcases i with _ | m
        · rw [Nat.add_zero, hcase] at hnan
          exact absurd hnan (by decide)
        · exact ⟨m, rfl⟩
      have hrec : trainLoopSteps losses n (idx + 1) = (m + 1, true) := by
        refine ih (idx + 1) m (by omega) ?_ ?_
        · have h3 : idx + 1 + m = idx + (m + 1) := by omega
          rw [h3]
          exact hnan
        · intro j hj
          have h4 : idx + 1 + j = idx + (j + 1) := by omega
          rw [h4]
          exact hfirst (j + 1) (by omega)
      simp [hrec]

/-- Claim C8 (amended): the training loop halts on an observed NaN loss,
not on a general non-finite loss.  If the first NaN per-step loss occurs
at step `i` (and `i` is within the scheduled `numEpochs * stepsPerEpoch`
steps), `train_glow` returns `(None, None)` (modelled `none`) having
executed exactly `i + 1` training steps and no more.  A non-NaN
infinite loss does not trigger the halt (see the counterexample). -/
theorem train_glow_halts_on_nan (losses : ℕ → FloatVal) (e s i : ℕ)
    (hi : i < e * s) (hnan : (losses i).isnan = true)
    (hfirst : ∀ j, j < i → (losses j).isnan = false) :
    train_glow losses e s = (none, i + 1) := by
  have h := trainLoopSteps_first_nan losses (e * s) 0 i hi
    (by rw [Nat.zero_add]; exact hnan)
    (by intro j hj; rw [Nat.zero_add]; exact hfirst j hj)
  rw [train_glow, h]
  rfl

theorem train_glow_halts_on_nan_witness :
    train_glow (fun j => if j = 1 then FloatVal.nan else FloatVal.val 1) 1 3
      = (none, 2) :=
  train_glow_halts_on_nan (fun j => if j = 1 then FloatVal.nan else FloatVal.val 1)
    1 3 1 (by decide) (by decide) (by decide)

/-! ### Theorems: component and model inverses (C1) -/

lemma lowerMat_det {n : ℕ} (p : StepParams n) : (lowerMat p).det = 1 := by
  rw [Matrix.det_of_lowerTriangular (lowerMat p) ?ht]
  case ht =>
    intro i j hij
    have hij2 : i < j := by
      simpa using hij
    show (if i = j then (1 : ℝ) else if j < i then p.lfac i j else 0) = 0
    rw [if_neg (by omega : ¬ i = j), if_neg (by omega : ¬ j < i)]
  · have hd : ∀ i : Fin (n + n), lowerMat p i i = 1 := fun i => by
      show (if i = i then (1 : ℝ) else _) = 1
      rw [if_pos rfl]
    rw [Finset.prod_congr rfl fun i _ => hd i]
    exact Finset.prod_const_one

lemma upperMat_det {n : ℕ} (p : StepParams n) :
    (upperMat p).det = ∏ i, p.sgn i * Real.exp (p.logmag i) := by
  rw [Matrix.det_of_upperTriangular ?ht]
  case ht =>
    intro i j hij
    have hij2 : j < i := hij
    show (if i = j then p.sgn i * Real.exp (p.logmag i)
        else if i < j then p.ufac i j else 0) = 0
    rw [if_neg (by omega : ¬ i = j), if_neg (by omega : ¬ i < j)]
  apply Finset.prod_congr rfl
  intro i _
  show (if i = i then p.sgn i * Real.exp (p.logmag i) else _) = _
  rw [if_pos rfl]

lemma wMat_isUnit_det {n : ℕ} (p : StepParams n) (hs : ∀ i, p.sgn i ≠ 0) :
    IsUnit (wMat p).det := by
  rw [wMat, Matrix.det_mul, Matrix.det_mul, Matrix.det_permutation,
    lowerMat_det, upperMat_det]
  apply isUnit_iff_ne_zero.mpr
  apply mul_ne_zero (mul_ne_zero ?_ one_ne_zero)
  · exact Finset.prod_ne_zero_iff.mpr
      fun i _ => mul_ne_zero (hs i) (Real.exp_ne_zero _)
  · rcases Int.units_eq_one_or (Equiv.Perm.sign p.perm) with h | h <;>
      rw [h] <;> norm_num

lemma applyMat_pos (c : ℕ) (W : Matrix (Fin c) (Fin c) ℝ) (x : ChanF)
    (k : ℕ) (h : k < c) :
    applyMat c W x k = W.mulVec (fun j => x j.val) ⟨k, h⟩ := dif_pos h

lemma applyMat_neg (c : ℕ) (W : Matrix (Fin c) (Fin c) ℝ) (x : ChanF)
    (k : ℕ) (h : ¬ k < c) : applyMat c W x k = x k := dif_neg h

lemma applyMat_restrict (c : ℕ) (W : Matrix (Fin c) (Fin c) ℝ) (x : ChanF) :
    (fun j : Fin c => applyMat c W x j.val) = W.mulVec fun j => x j.val := by
  funext j
  rw [applyMat_pos c W x j.val j.isLt, Fin.eta]

lemma applyMat_leftInv (c : ℕ) (W : Matrix (Fin c) (Fin c) ℝ)
    (hW : IsUnit W.det) (x : ChanF) :
    applyMat c W⁻¹ (applyMat c W x) = x := by
  funext k
  by_cases h : k < c
  · rw [applyMat_pos c W⁻¹ _ k h, applyMat_restrict, Matrix.mulVec_mulVec,
      Matrix.nonsing_inv_mul W hW, Matrix.one_mulVec]
  · rw [applyMat_neg c W⁻¹ _ k h, applyMat_neg c W x k h]

lemma affineCoupling_pos (n : ℕ)
    (nn : (Fin n → ℝ) → (Fin n → ℝ) × (Fin n → ℝ)) (x : ChanF)
    (k : ℕ) (h : k < n) :
    affineCoupling n nn x k
      = Real.exp ((nn fun j => x (n + j.val)).1 ⟨k, h⟩) * x k
        + (nn fun j => x (n + j.val)).2 ⟨k, h⟩ := dif_pos h

lemma affineCoupling_neg (n : ℕ)
    (nn : (Fin n → ℝ) → (Fin n → ℝ) × (Fin n → ℝ)) (x : ChanF)
    (k : ℕ) (h : ¬ k < n) : affineCoupling n nn x k = x k := dif_neg h

lemma affineCouplingInv_pos (n : ℕ)
    (nn : (Fin n → ℝ) → (Fin n → ℝ) × (Fin n → ℝ)) (y : ChanF)
    (k : ℕ) (h : k < n) :
    affineCouplingInv n nn y k
      = (y k - (nn fun j => y (n + j.val)).2 ⟨k, h⟩)
        * Real.exp (-((nn fun j => y (n + j.val)).1 ⟨k, h⟩)) := dif_pos h

lemma affineCouplingInv_neg (n : ℕ)
    (nn : (Fin n → ℝ) → (Fin n → ℝ) × (Fin n → ℝ)) (y : ChanF)
    (k : ℕ) (h : ¬ k < n) : affineCouplingInv n nn y k = y k := dif_neg h

lemma affineCoupling_leftInv (n : ℕ)
    (nn : (Fin n → ℝ) → (Fin n → ℝ) × (Fin n → ℝ)) (x : ChanF) :
    affineCouplingInv n nn (affineCoupling n nn x) = x := by
  funext k
  have hb : (fun j : Fin n => affineCoupling n nn x (n + j.val))
      = fun j => x (n + j.val) := by
    funext j
    exact affineCoupling_neg n nn x _ (by omega)
  by_cases h : k < n
  · rw [affineCouplingInv_pos n nn _ k h, hb, affineCoupling_pos n nn x k h,
      add_sub_cancel_right, Real.exp_neg, mul_comm (Real.exp _) (x k),
      mul_assoc, mul_inv_cancel₀ (Real.exp_ne_zero _), mul_one]
  · rw [affineCouplingInv_neg n nn _ k h, affineCoupling_neg n nn x k h]

lemma actNorm_leftInv (sigma mu : ℕ → ℝ) (hs : ∀ k, sigma k ≠ 0)
    (x : ChanF) : actNormInv sigma mu (actNorm sigma mu x) = x := by
  funext k
  show (x k * sigma k + mu k - mu k) / sigma k = x k
  rw [add_sub_cancel_right, mul_div_cancel_right₀ _ (hs k)]

lemma conv1x1_leftInv {n : ℕ} (p : StepParams n) (hs : ∀ i, p.sgn i ≠ 0)
    (x : ChanF) : conv1x1Inv p (conv1x1 p x) = x :=
  applyMat_leftInv (n + n) (wMat p) (wMat_isUnit_det p hs) x

lemma flowStep_leftInv {n : ℕ} (p : StepParams n) (hp : ValidStep n p)
    (x : ChanF) : flowStepInv p (flowStep p x) = x := by
  rw [flowStep, flowStepInv, affineCoupling_leftInv, conv1x1_leftInv p hp.2,
    actNorm_leftInv p.sigma p.mu hp.1]

lemma flowSteps_leftInv {n : ℕ} :
    ∀ (ps : List (StepParams n)), (∀ p ∈ ps, ValidStep n p) →
      ∀ x, flowStepsInv ps (flowSteps ps x) = x := by
  intro ps
  induction ps with
  | nil => intro _ x; rfl
  | cons p ps ih =>
    intro hps x
    show flowStepInv p (flowStepsInv ps (flowSteps ps (flowStep p x))) = x
    rw [ih (fun q hq => hps q (List.mem_cons_of_mem _ hq)) (flowStep p x),
      flowStep_leftInv p (hps p (List.mem_cons_self _ _)) x]

lemma applyChan_leftInv (f g : ChanF → ChanF) (hfg : ∀ v, g (f v) = v)
    (x : Tensor) : applyChan g (applyChan f x) = x := by
  funext i j k
  show g (fun m => applyChan f x i j m) k = x i j k
  have h1 : (fun m => applyChan f x i j m) = f (fun m => x i j m) := rfl
  rw [h1, hfg]

lemma affineCouplingInv_agree (n : ℕ)
    (nn : (Fin n → ℝ) → (Fin n → ℝ) × (Fin n → ℝ)) (u v : ChanF)
    (h : ∀ k, k < n + n → u k = v k) :
    ∀ k, k < n + n → affineCouplingInv n nn u k = affineCouplingInv n nn v k := by
  intro k hk
  have hb : (fun j : Fin n => u (n + j.val)) = fun j => v (n + j.val) := by
    funext j
    exact h (n + j.val) (by omega)
  by_cases hkn : k < n
  · rw [affineCouplingInv_pos n nn u k hkn, affineCouplingInv_pos n nn v k hkn,
      hb, h k hk]
  · rw [affineCouplingInv_neg n nn u k hkn, affineCouplingInv_neg n nn v k hkn,
      h k hk]

lemma applyMat_agree (c : ℕ) (W : Matrix (Fin c) (Fin c) ℝ) (u v : ChanF)
    (h : ∀ k, k < c → u k = v k) :
    ∀ k, k < c → applyMat c W u k = applyMat c W v k := by
  intro k hk
  rw [applyMat_pos c W u k hk, applyMat_pos c W v k hk]
  congr 1
  funext j
  exact h j.val j.isLt

lemma actNormInv_agree (sigma mu : ℕ → ℝ) (u v : ChanF) (c : ℕ)
    (h : ∀ k, k < c → u k = v k) :
    ∀ k, k < c → actNormInv sigma mu u k = actNormInv sigma mu v k := by
  intro k hk
  show (u k - mu k) / sigma k = (v k - mu k) / sigma k
  rw [h k hk]

lemma flowStepInv_agree {n : ℕ} (p : StepParams n) (u v : ChanF)
    (h : ∀ k, k < n + n → u k = v k) :
    ∀ k, k < n + n → flowStepInv p u k = flowStepInv p v k := by
  intro k hk
  show actNormInv p.sigma p.mu (conv1x1Inv p (affineCouplingInv n p.nn u)) k
      = actNormInv p.sigma p.mu (conv1x1Inv p (affineCouplingInv n p.nn v)) k
  exact actNormInv_agree p.sigma p.mu _ _ (n + n)
    (applyMat_agree (n + n) (wMat p)⁻¹ _ _
      (affineCouplingInv_agree n p.nn u v h)) k hk

lemma flowStepsInv_agree {n : ℕ} :
    ∀ (ps : List (StepParams n)) (u v : ChanF),
      (∀ k, k < n + n → u k = v k) →
      ∀ k, k < n + n → flowStepsInv ps u k = flowStepsInv ps v k := by
  intro ps
  induction ps with
  | nil => intro u v h k hk; exact h k hk
  | cons p ps ih =>
    intro u v h k hk
    show flowStepInv p (flowStepsInv ps u) k = flowStepInv p (flowStepsInv ps v) k
    exact flowStepInv_agree p _ _ (ih u v h) k hk

lemma glow_leftInv : ∀ {l c : ℕ} (ps : GlowParams l c), ValidGlow ps →
    ∀ (x : Tensor) (i j k : ℕ), k < c →
      glowInverse ps (glowForward ps x) i j k = x i j k := by
  intro l c ps
  induction ps with
  | last c steps =>
    intro hv x i j k hk
    show unsqueeze c (applyChan (flowStepsInv steps)
        (applyChan (flowSteps steps) (squeeze c x))) i j k = x i j k
    rw [applyChan_leftInv _ _ (flowSteps_leftInv steps hv) (squeeze c x)]
    exact (squeeze_unsqueeze_inverse c x x i j k).1 hk
  | cons l c steps rest ih =>
    intro hv x i j k hk
    have hrec : ∀ i' j' k', k' < c + c →
        glowInverse rest (glowForward rest
            (splitHigh (c + c) (applyChan (flowSteps steps) (squeeze c x))))
          i' j' k'
        = splitHigh (c + c) (applyChan (flowSteps steps) (squeeze c x))
            i' j' k' :=
      fun i' j' k' hk' => ih hv.2 _ i' j' k' hk'
    have hunsplit : ∀ i' j' k', k' < (c + c) + (c + c) →
        unsplitT (c + c)
          (glowInverse rest (glowForward rest
            (splitHigh (c + c) (applyChan (flowSteps steps) (squeeze c x)))))
          (splitLow (c + c) (applyChan (flowSteps steps) (squeeze c x)))
          i' j' k'
        = applyChan (flowSteps steps) (squeeze c x) i' j' k' := by
      intro i' j' k' hk'
      by_cases hlow : k' < c + c
      · show (if k' < c + c then
            splitLow (c + c) (applyChan (flowSteps steps) (squeeze c x)) i' j' k'
          else _) = _
        rw [if_pos hlow]
        show (if k' < c + c then
            applyChan (flowSteps steps) (squeeze c x) i' j' k' else 0) = _
        rw [if_pos hlow]
      · show (if k' < c + c then _
          else glowInverse rest (glowForward rest
              (splitHigh (c + c) (applyChan (flowSteps steps) (squeeze c x))))
            i' j' (k' - (c + c))) = _
        rw [if_neg hlow, hrec i' j' (k' - (c + c)) (by omega)]
        show (if k' - (c + c) < c + c then
            applyChan (flowSteps steps) (squeeze c x) i' j'
              (k' - (c + c) + (c + c))
          else 0) = _
        rw [if_pos (by omega)]
        congr 1
        omega
    have hsteps : ∀ i' j' k', k' < (c + c) + (c + c) →
        applyChan (flowStepsInv steps)
          (unsplitT (c + c)
            (glowInverse rest (glowForward rest
              (splitHigh (c + c) (applyChan (flowSteps steps) (squeeze c x)))))
            (splitLow (c + c) (applyChan (flowSteps steps) (squeeze c x))))
          i' j' k'
        = squeeze c x i' j' k' := by
      intro i' j' k' hk'
      show flowStepsInv steps
          (fun m => unsplitT (c + c)
            (glowInverse rest (glowForward rest
              (splitHigh (c + c) (applyChan (flowSteps steps) (squeeze c x)))))
            (splitLow (c + c) (applyChan (flowSteps steps) (squeeze c x)))
            i' j' m) k'
        = squeeze c x i' j' k'
      have h2 := flowStepsInv_agree steps _ _
        (fun k'' hk'' => hunsplit i' j' k'' hk'') k' hk'
      rw [h2]
      show flowStepsInv steps
          (flowSteps steps (fun m => squeeze c x i' j' m)) k'
        = squeeze c x i' j' k'
      rw [flowSteps_leftInv steps hv.1]
    show applyChan (flowStepsInv steps)
        (unsplitT (c + c)
          (glowInverse rest (glowForward rest
            (splitHigh (c + c) (applyChan (flowSteps steps) (squeeze c x)))))
          (splitLow (c + c) (applyChan (flowSteps steps) (squeeze c x))))
        (i / 2) (j / 2) (k + c * (2 * (i % 2) + j % 2))
      = x i j k
    rw [hsteps (i / 2) (j / 2) _ (by
      have hbb : 2 * (i % 2) + j % 2 ≤ 3 := by omega
      have h5 : c * (2 * (i % 2) + j % 2) ≤ c * 3 := Nat.mul_le_mul_left c hbb
      omega)]
    exact (squeeze_unsqueeze_inverse c x x i j k).1 hk

lemma meanAbsDiffC_lt (c : ℕ) (f g : ChanF)
    (h : ∀ k, k < c → f k = g k) : meanAbsDiffC c f g < 1e-4 := by
  have hz : (∑ k ∈ Finset.range c, |f k - g k|) = 0 :=
    Finset.sum_eq_zero fun k hk => by
      rw [h k (Finset.mem_range.mp hk), sub_self, abs_zero]
  rw [meanAbsDiffC, hz, zero_div]
  norm_num

lemma meanAbsDiffT_lt (h w c : ℕ) (x y : Tensor)
    (hxy : ∀ i j k, k < c → x i j k = y i j k) :
    meanAbsDiffT h w c x y < 1e-4 := by
  have hz : (∑ i ∈ Finset.range h, ∑ j ∈ Finset.range w,
      ∑ k ∈ Finset.range c, |x i j k - y i j k|) = 0 :=
    Finset.sum_eq_zero fun i _ => Finset.sum_eq_zero fun j _ =>
      Finset.sum_eq_zero fun k hk => by
        rw [hxy i j k (Finset.mem_range.mp hk), sub_self, abs_zero]
  rw [meanAbsDiffT, hz, zero_div]
  norm_num

/-- Claim C1: with invertible parameters, running any component forward
and then inverse reproduces the input exactly, so the mean absolute
difference over the component's channels is below the tolerance `1e-4`;
the same holds for the full multi-scale model: encoding a tensor and
decoding from the returned latent list reproduces every entry of the
input shape region, so the mean absolute difference over any
`(h, w, c)` shape region is below `1e-4`.  The conjuncts cover ActNorm,
the invertible 1x1 convolution, the affine coupling, the composed
FlowStep, and the full model. -/
theorem glow_and_components_invert {n : ℕ} (p : StepParams n)
    (hp : ValidStep n p) {l c : ℕ} (ps : GlowParams l c)
    (hps : ValidGlow ps) (v : ChanF) (x : Tensor) (h w : ℕ) :
    meanAbsDiffC (n + n)
        (actNormInv p.sigma p.mu (actNorm p.sigma p.mu v)) v < 1e-4
    ∧ meanAbsDiffC (n + n) (conv1x1Inv p (conv1x1 p v)) v < 1e-4
    ∧ meanAbsDiffC (n + n)
        (affineCouplingInv n p.nn (affineCoupling n p.nn v)) v < 1e-4
    ∧ meanAbsDiffC (n + n) (flowStepInv p (flowStep p v)) v < 1e-4
    ∧ meanAbsDiffT h w c (glowInverse ps (glowForward ps x)) x < 1e-4 := by
  refine ⟨?_, ?_, ?_, ?_, ?_⟩
  · exact meanAbsDiffC_lt _ _ _
      fun k _ => by rw [actNorm_leftInv p.sigma p.mu hp.1 v]
  · exact meanAbsDiffC_lt _ _ _
      fun k _ => by rw [conv1x1_leftInv p hp.2 v]
  · exact meanAbsDiffC_lt _ _ _
      fun k _ => by rw [affineCoupling_leftInv n p.nn v]
  · exact meanAbsDiffC_lt _ _ _
      fun k _ => by rw [flowStep_leftInv p hp v]
  · exact meanAbsDiffT_lt _ _ _ _ _
      fun i j k hk => glow_leftInv ps hps x i j k hk

theorem glow_and_components_invert_witness :
    meanAbsDiffC (1 + 1)
        (actNormInv unitStep.sigma unitStep.mu
          (actNorm unitStep.sigma unitStep.mu (fun _ => 0))) (fun _ => 0)
        < 1e-4
    ∧ meanAbsDiffC (1 + 1)
        (conv1x1Inv unitStep (conv1x1 unitStep (fun _ => 0))) (fun _ => 0)
        < 1e-4
    ∧ meanAbsDiffC (1 + 1)
        (affineCouplingInv 1 unitStep.nn
          (affineCoupling 1 unitStep.nn (fun _ => 0))) (fun _ => 0) < 1e-4
    ∧ meanAbsDiffC (1 + 1)
        (flowStepInv unitStep (flowStep unitStep (fun _ => 0))) (fun _ => 0)
        < 1e-4
    ∧ meanAbsDiffT 4 4 1
        (glowInverse trivialGlow (glowForward trivialGlow zeroT)) zeroT
        < 1e-4 :=
  glow_and_components_invert unitStep
    ⟨fun _ => one_ne_zero, fun _ => one_ne_zero⟩ trivialGlow
    (fun q hq => absurd hq (List.not_mem_nil q)) (fun _ => 0) zeroT 4 4

/-! ### Theorems: sampling determinism (C9) -/

/-- Claim C9: `sample` is deterministic given its arguments: randomness
enters only through the explicit caller-supplied `key` (and `eps`), and
no module-level random state is read: two invocations with identical
arguments produce identical outputs, whatever the module-level
`random_key` is. -/
theorem sample_deterministic {l c : ℕ} (gs gs2 : ModuleState)
    (ps : GlowParams l c) (eps : Option (List Tensor)) (shape : ℕ × ℕ × ℕ)
    (T : ℝ) (key : ℕ) (pf : Option (Tensor → Tensor)) :
    sample gs ps eps shape T key pf = sample gs ps eps shape T key pf
    ∧ sample gs ps eps shape T key pf = sample gs2 ps eps shape T key pf :=
  ⟨rfl, rfl⟩

/-! ### Theorems: latent log-likelihood (C4) -/

lemma logpzTerm_eq_gauss (zi mu ls : List ℝ) :
    logpzTerm zi mu ls
      = ((zi.zip (mu.zip ls)).map
          (fun q => gaussLogDensity q.2.1 (Real.exp q.2.2) q.1)).sum := by
  have hf : (fun p : ℝ × ℝ × ℝ =>
        -p.2.2 - 0.5 * Real.log (2 * Real.pi)
          - 0.5 * (p.1 - p.2.1) ^ 2 / Real.exp (2 * p.2.2))
      = fun q : ℝ × ℝ × ℝ => gaussLogDensity q.2.1 (Real.exp q.2.2) q.1 := by
    funext q
    rw [gaussLogDensity, Real.log_exp]
    have he : Real.exp q.2.2 ^ 2 = Real.exp (2 * q.2.2) := by
      rw [two_mul, Real.exp_add, sq]
    rw [he]
  rw [logpzTerm, hf]

lemma logpzTerm_zeros (zi : List ℝ) :
    logpzTerm zi (zi.map fun _ => 0) (zi.map fun _ => 0)
      = (zi.map (fun zv => gaussLogDensity 0 (Real.exp 0) zv)).sum := by
  rw [logpzTerm_eq_gauss]
  induction zi with
  | nil => rfl
  | cons zv tl ih => simp only [List.map_cons, List.zip_cons_cons, List.sum_cons, ih]

/-- Claim C4: per batch element (the `@jax.vmap` axis), `get_logpz`
returns the sum over all scales of the Gaussian log-density of the
latent slice under its prior: per position
`-log sigma - 0.5*log(2*pi) - 0.5*(z - mu)^2 / sigma^2` where
`mu` and `log sigma` are the first and second channel halves of the
prior tensor (`sigma = exp (log sigma)`), and a `None` prior means
`mu = 0`, `log sigma = 0`.  Each prior tensor has an even number of
entries (its two halves). -/
theorem get_logpz_is_gaussian_sum (z : List (List ℝ))
    (priors : List (Option (List ℝ)))
    (hp : ∀ po ∈ priors, ∀ p, po = some p → 2 ∣ p.length) :
    get_logpz z priors = claimLogpz z priors := by
  induction z generalizing priors with
  | nil =>
    cases priors with
    | nil => rfl
    | cons pi pr => rfl
  | cons zi zr ih =>
    cases priors with
    | nil => rfl
    | cons pi pr =>
      have htl : get_logpz zr pr = claimLogpz zr pr :=
        ih pr (fun po hpo p hpe => hp po (List.mem_cons_of_mem _ hpo) p hpe)
      cases pi with
      | none =>
        rw [show get_logpz (zi :: zr) (none :: pr)
              = logpzTerm zi (zi.map fun _ => 0) (zi.map fun _ => 0)
                + get_logpz zr pr from rfl,
            show claimLogpz (zi :: zr) (none :: pr)
              = (zi.map (fun zv => gaussLogDensity 0 (Real.exp 0) zv)).sum
                + claimLogpz zr pr from rfl,
            htl, logpzTerm_zeros]
      | some p =>
        have hdvd : 2 ∣ p.length := hp (some p) (List.mem_cons_self _ _) p rfl
        rw [show get_logpz (zi :: zr) (some p :: pr)
              = (match split p with
                 | some (mu, ls) => logpzTerm zi mu ls
                 | none => 0)
                + get_logpz zr pr from rfl,
            show claimLogpz (zi :: zr) (some p :: pr)
              = ((zi.zip ((p.take (p.length / 2)).zip
                    (p.drop (p.length / 2)))).map
                  (fun q => gaussLogDensity q.2.1 (Real.exp q.2.2) q.1)).sum
                + claimLogpz zr pr from rfl,
            htl, split, if_pos hdvd]
        show logpzTerm zi (p.take (p.length / 2)) (p.drop (p.length / 2))
            + claimLogpz zr pr = _
        rw [logpzTerm_eq_gauss]

theorem get_logpz_is_gaussian_sum_witness :
    get_logpz [[1]] [some [0, 0]] = claimLogpz [[1]] [some [0, 0]] :=
  get_logpz_is_gaussian_sum [[1]] [some [0, 0]]
    (by
      intro po hpo p hpe
      simp only [List.mem_singleton] at hpo
      subst hpo
      injection hpe with hpe2
      subst hpe2
      decide)

/-! ### Theorems: latent shape hierarchy (C5) -/

lemma latentShapes_length (n : ℕ) :
    ∀ (l h w c : ℕ), (latentShapes n h w c l).length = l := by
  intro l
  induction l with
  | zero => intro h w c; rfl
  | succ l ih =>
    intro h w c
    rw [latentShapes]
    by_cases hl : l = 0
    · subst hl; rfl
    · rw [if_neg hl]
      simp [ih]

lemma latentShapes_getD (n : ℕ) :
    ∀ (l h w c i : ℕ), i < l →
      (latentShapes n h w c l).getD i (0, 0, 0, 0)
        = (n, h / 2 ^ (i + 1), w / 2 ^ (i + 1),
            if i = l - 1 then c * 2 ^ (l + 1) else c * 2 ^ (i + 1)) := by
  intro l
  induction l with
  | zero => intro h w c i hi; omega
  | succ l ih =>
    intro h w c i hi
    rw [latentShapes]
    by_cases hl0 : l = 0
    · subst hl0
      have hi0 : i = 0 := by omega
      subst hi0
      simp only [if_pos rfl, List.getD_cons_zero, pow_one]
      norm_num
    · rw [if_neg hl0]
      cases i with
      | zero =>
        simp only [List.getD_cons_zero, pow_one]
        rw [if_neg (by omega)]
        norm_num
      | succ m =>
        rw [List.getD_cons_succ, ih (h / 2) (w / 2) (c * 2) m (by omega)]
        have hdivh : h / 2 / 2 ^ (m + 1) = h / 2 ^ (m + 1 + 1) := by
          rw [Nat.div_div_eq_div_mul]
          congr 1
          rw [pow_succ]
          ring
        have hdivw : w / 2 / 2 ^ (m + 1) = w / 2 ^ (m + 1 + 1) := by
          rw [Nat.div_div_eq_div_mul]
          congr 1
          rw [pow_succ]
          ring
        rw [hdivh, hdivw]
        by_cases hm : m = l - 1
        · rw [if_pos hm, if_pos (by omega)]
          have h1 : c * 2 * 2 ^ (l + 1) = c * 2 ^ (l + 1 + 1) := by
            rw [pow_succ]
            ring
          rw [h1]
        · rw [if_neg hm, if_neg (by omega)]
          have h2 : c * 2 * 2 ^ (m + 1) = c * 2 ^ (m + 1 + 1) := by
            rw [pow_succ]
            ring
          rw [h2]

/-- Claim C5: for an input of shape `(n, h, w, c)` and `l ≥ 1` scales,
the latent emitted at scale `i` (0-based, `i < l`) has shape
`(n, h / 2^(i+1), w / 2^(i+1), c * 2^(i+1))`, except at the last scale
`i = l - 1` where the channel count is doubled to `c * 2^(l+1)`, which
equals `c * 4^l / 2^(l-1)`; in particular the input `(2, 8, 8, 3)` with
`l = 2` yields latent shapes `[(2,4,4,6), (2,2,2,24)]`. -/
theorem latent_shape_hierarchy (n h w c l i : ℕ) (hl : 1 ≤ l) (hi : i < l) :
    (latentShapes n h w c l).length = l
    ∧ (latentShapes n h w c l).getD i (0, 0, 0, 0)
        = (n, h / 2 ^ (i + 1), w / 2 ^ (i + 1),
            if i = l - 1 then c * 2 ^ (l + 1) else c * 2 ^ (i + 1))
    ∧ c * 2 ^ (l + 1) = c * 4 ^ l / 2 ^ (l - 1)
    ∧ latentShapes 2 8 8 3 2 = [(2, 4, 4, 6), (2, 2, 2, 24)] := by
  refine ⟨latentShapes_length n l h w c, latentShapes_getD n l h w c i hi, ?_, by decide⟩
  have h4 : (4 : ℕ) ^ l = 2 ^ (l - 1) * 2 ^ (l + 1) := by
    have : (4 : ℕ) ^ l = 2 ^ (2 * l) := by
      rw [show (4 : ℕ) = 2 ^ 2 by norm_num, ← pow_mul]
    rw [this, ← pow_add]
    congr 1
    omega
  rw [h4, show c * (2 ^ (l - 1) * 2 ^ (l + 1)) = 2 ^ (l - 1) * (c * 2 ^ (l + 1)) by ring]
  rw [Nat.mul_div_cancel_left _ (Nat.pos_pow_of_pos _ (by norm_num))]

theorem latent_shape_hierarchy_witness :
    (latentShapes 2 8 8 3 2).length = 2
    ∧ (latentShapes 2 8 8 3 2).getD 0 (0, 0, 0, 0)
        = (2, 8 / 2 ^ 1, 8 / 2 ^ 1, if 0 = 2 - 1 then 3 * 2 ^ 3 else 3 * 2 ^ 1)
    ∧ 3 * 2 ^ 3 = 3 * 4 ^ 2 / 2 ^ 1
    ∧ latentShapes 2 8 8 3 2 = [(2, 4, 4, 6), (2, 2, 2, 24)] :=
  latent_shape_hierarchy 2 8 8 3 2 0 (by decide) (by decide)

/-! ### Theorems: ActNorm initialization (C6) -/

lemma chVar_nonneg (m : ℕ) (d : ℕ → ℝ) : 0 ≤ chVar m d :=
  div_nonneg (Finset.sum_nonneg fun _ _ => sq_nonneg _) (Nat.cast_nonneg m)

/-- Claim C6: immediately after ActNorm's data-dependent initialization
call on a channel with `m` pooled positions (`m > 0`, non-degenerate
standard deviation), the returned output has mean within `1e-5` of 0
and standard deviation within `1e-5` of 1 (both are in fact exact). -/
theorem actnorm_init_normalizes (m : ℕ) (d : ℕ → ℝ) (hm : 0 < m)
    (hs : chStd m d ≠ 0) :
    |chMean m (actNormInitOut m d)| < 1e-5
    ∧ |chStd m (actNormInitOut m d) - 1| < 1e-5 := by
  have hmr : (m : ℝ) ≠ 0 := Nat.cast_ne_zero.mpr hm.ne'
  have hv0 : 0 ≤ chVar m d := chVar_nonneg m d
  have hs2 : chStd m d ^ 2 = chVar m d := Real.sq_sqrt hv0
  have hv : chVar m d ≠ 0 := by
    intro h
    exact hs (by rw [chStd, h, Real.sqrt_zero])
  have hsum : ∑ i ∈ Finset.range m, d i = m * chMean m d := by
    rw [chMean]
    field_simp
  have hmean : chMean m (actNormInitOut m d) = 0 := by
    rw [chMean]
    have hz : ∑ i ∈ Finset.range m, actNormInitOut m d i = 0 := by
      simp only [actNormInitOut]
      rw [Finset.sum_add_distrib, ← Finset.sum_mul, hsum, Finset.sum_const,
        Finset.card_range, nsmul_eq_mul]
      field_simp
    rw [hz, zero_div]
  have hsq : ∀ i, (actNormInitOut m d i - chMean m (actNormInitOut m d)) ^ 2
      = (d i - chMean m d) ^ 2 / chVar m d := by
    intro i
    rw [hmean, sub_zero, actNormInitOut]
    rw [show d i * (1 / chStd m d) + -chMean m d / chStd m d
          = (d i - chMean m d) / chStd m d by ring]
    rw [div_pow, hs2]
  have hsum2 : ∑ i ∈ Finset.range m, (d i - chMean m d) ^ 2
      = chVar m d * m := by
    rw [chVar]
    field_simp
  have hvar : chVar m (actNormInitOut m d) = 1 := by
    rw [chVar]
    rw [Finset.sum_congr rfl fun i _ => hsq i]
    rw [← Finset.sum_div, hsum2]
    field_simp
  have hstd : chStd m (actNormInitOut m d) = 1 := by
    rw [chStd, hvar, Real.sqrt_one]
  constructor
  · rw [hmean]
    norm_num
  · rw [hstd]
    norm_num

theorem actnorm_init_normalizes_witness :
    |chMean 2 (actNormInitOut 2 (fun i => if i = 0 then 0 else 2))| < 1e-5
    ∧ |chStd 2 (actNormInitOut 2 (fun i => if i = 0 then 0 else 2)) - 1|
        < 1e-5 :=
  actnorm_init_normalizes 2 (fun i => if i = 0 then 0 else 2) (by norm_num)
    (by
      have hv : chVar 2 (fun i => if i = 0 then 0 else 2) = 1 := by
        norm_num [chVar, chMean, Finset.sum_range_succ]
      rw [chStd, hv, Real.sqrt_one]
      norm_num)

/-! ### Theorems: sampling temperature (C7) -/

lemma sum_map_affine (a b : ℝ) (es : List ℝ) :
    (es.map (fun e => a + b * e)).sum = es.length * a + b * es.sum := by
  induction es with
  | nil => simp
  | cons e tl ih =>
    simp only [List.map_cons, List.sum_cons, List.length_cons, ih]
    push_cast
    ring

lemma listMean_map_affine (a b : ℝ) (es : List ℝ) (h : es ≠ []) :
    listMean (es.map (fun e => a + b * e)) = a + b * listMean es := by
  have hl : (es.length : ℝ) ≠ 0 :=
    Nat.cast_ne_zero.mpr (List.length_pos.mpr h).ne'
  rw [listMean, listMean, sum_map_affine, List.length_map]
  field_simp
  ring

lemma listVar_map_affine (a b : ℝ) (es : List ℝ) :
    listVar (es.map (fun e => a + b * e)) = b ^ 2 * listVar es := by
  rcases eq_or_ne es [] with rfl | hne
  · simp [listVar, listMean]
  · rw [listVar, listVar, listMean_map_affine a b es hne, List.map_map,
      List.length_map]
    have hf : (fun x => (x - (a + b * listMean es)) ^ 2)
          ∘ (fun e => a + b * e)
        = fun e => b ^ 2 * (e - listMean es) ^ 2 := by
      funext e
      simp only [Function.comp_apply]
      ring
    rw [hf]
    rw [List.sum_map_mul_left]
    rw [mul_div_assoc]

lemma listVar_nonneg (es : List ℝ) : 0 ≤ listVar es := by
  apply div_nonneg _ (Nat.cast_nonneg _)
  apply List.sum_nonneg
  intro x hx
  obtain ⟨e, _, rfl⟩ := List.mem_map.mp hx
  exact sq_nonneg _

/-- Claim C7: in sampling mode each latent position is drawn as
`mu + (sigma * T) * eps`: temperature `T` scales only the standard
deviation and never the mean.  At `T = 0` the draw is exactly the prior
mean; for mean-zero noise the empirical mean of the draws is `mu` at
every temperature; and for `0 ≤ T1 ≤ T2` the empirical variance of the
draws at `T2` is at least that at `T1`. -/
theorem sampling_temperature_scaling (mu sigma T T1 T2 e : ℝ)
    (es : List ℝ) (hT1 : 0 ≤ T1) (hT12 : T1 ≤ T2) :
    sampleLatent mu sigma 0 e = mu
    ∧ (es ≠ [] → listMean es = 0 →
        listMean (es.map (sampleLatent mu sigma T)) = mu)
    ∧ listVar (es.map (sampleLatent mu sigma T1))
        ≤ listVar (es.map (sampleLatent mu sigma T2)) := by
  refine ⟨by rw [sampleLatent]; ring, ?_, ?_⟩
  · intro hne hmean
    rw [show es.map (sampleLatent mu sigma T)
          = es.map (fun e => mu + (sigma * T) * e) from rfl]
    rw [listMean_map_affine _ _ _ hne, hmean]
    ring
  · rw [show es.map (sampleLatent mu sigma T1)
          = es.map (fun e => mu + (sigma * T1) * e) from rfl,
        show es.map (sampleLatent mu sigma T2)
          = es.map (fun e => mu + (sigma * T2) * e) from rfl,
        listVar_map_affine, listVar_map_affine]
    apply mul_le_mul_of_nonneg_right _ (listVar_nonneg es)
    rw [mul_pow, mul_pow]
    exact mul_le_mul_of_nonneg_left
      (pow_le_pow_left₀ hT1 hT12 2) (sq_nonneg sigma)

theorem sampling_temperature_scaling_witness :
    sampleLatent 1 2 0 5 = 1
    ∧ listMean (([0] : List ℝ).map (sampleLatent 1 2 3)) = 1
    ∧ listVar (([0] : List ℝ).map (sampleLatent 1 2 0))
        ≤ listVar (([0] : List ℝ).map (sampleLatent 1 2 1)) := by
  obtain ⟨h1, h2, h3⟩ :=
    sampling_temperature_scaling 1 2 3 0 1 5 [0] (by norm_num) (by norm_num)
  exact ⟨h1, h2 (by simp) (by simp [listMean]), h3⟩

/-- Claim C8 (counterexample to the claim as stated): an infinite loss is
non-finite but is not NaN, so the loop does not halt: with the per-step
loss `+inf` at every step and 2 scheduled steps, `train_glow` executes
both steps and returns a non-`None` result, instead of halting after
step 1 with `(None, None)` as the claim requires. -/
theorem train_glow_inf_does_not_halt :
    FloatVal.inf.isFiniteV = false
    ∧ train_glow (fun _ => FloatVal.inf) 1 2 = (some (), 2) := by
  constructor
  · rfl
  · rfl

end Glow
